import Mathlib

/-!
Shallow embedding of the web scraper in src/main.py.

The HTML document handed to BeautifulSoup is modelled as a first-child /
right-sibling tree of elements; `elemsOf` lists all elements of a forest in
document order, which is the traversal order of bs4's find / find_all.
External library calls are oracle parameters: the HTTP layer is a function
from attempt number (or URL) to a result, urljoin is an abstract resolver
argument, and operator keyboard input is a list of input lines.
-/

/-- Whitespace characters matched by Python's regex class \s and by
str.strip (restricted to ASCII; the claims involve only ASCII text). -/
def isSpace (c : Char) : Bool :=
  c = ' ' || c = '\t' || c = '\n' || c = '\r' || c = Char.ofNat 11 || c = Char.ofNat 12

/-- Python str.strip: drop leading and trailing whitespace. -/
def stripChars (l : List Char) : List Char :=
  ((l.dropWhile isSpace).reverse.dropWhile isSpace).reverse

/-- One pass of re.sub with pattern \s+ and replacement a single space: the
Boolean flag records whether the previous character was part of a
whitespace run that has already emitted its single replacement space. -/
def collapseAux : Bool → List Char → List Char
  | _, [] => []
  | prev, c :: cs =>
    if isSpace c then
      if prev then collapseAux true cs else ' ' :: collapseAux true cs
    else c :: collapseAux false cs

/-- clean_text from main.py: None or the empty string give the sentinel,
otherwise whitespace is stripped at the ends and every interior run is
collapsed to one space; an all-whitespace string also gives the sentinel. -/
def clean_text : Option String → String
  | none => "N/A"
  | some s =>
    if s.toList = [] then "N/A"
    else
      let t := collapseAux false (stripChars s.toList)
      if t = [] then "N/A" else String.mk t

/-- HTML element tree in first-child / right-sibling form: a node carries
its tag, its attributes, its visible text (bs4's element.text, stored as
data), the forest of its children and the forest of its right siblings.
nil terminates a sibling chain. -/
inductive HTree : Type where
  | nil : HTree
  | node (tag : String) (attrs : List (String × String)) (txt : String)
      (children : HTree) (sib : HTree) : HTree
deriving DecidableEq

def HTree.tagOf : HTree → String
  | .nil => ""
  | .node t _ _ _ _ => t

def HTree.attrsOf : HTree → List (String × String)
  | .nil => []
  | .node _ a _ _ _ => a

def HTree.textOf : HTree → String
  | .nil => ""
  | .node _ _ s _ _ => s

def HTree.childrenOf : HTree → HTree
  | .nil => .nil
  | .node _ _ _ c _ => c

/-- All elements of a forest in document order; each element handle keeps
its own subtree and drops its siblings, so a handle identifies one element
together with its contents. -/
def elemsOf : HTree → List HTree
  | .nil => []
  | .node t a s c sib => HTree.node t a s c .nil :: (elemsOf c ++ elemsOf sib)

/-- soup.find_all(tag): every element of the document with the given tag. -/
def findAll (doc : HTree) (tag : String) : List HTree :=
  (elemsOf doc).filter (fun e => e.tagOf == tag)

/-- element.find_all(list of tags): the descendants of an element whose tag
is one of the given tags. -/
def findAllIn (e : HTree) (tags : List String) : List HTree :=
  (elemsOf e.childrenOf).filter (fun d => tags.contains d.tagOf)

/-- element.find(tag): the first descendant with the given tag, if any. -/
def findFirst (e : HTree) (tag : String) : Option HTree :=
  (elemsOf e.childrenOf).find? (fun d => d.tagOf == tag)

/-- Python str.upper, a per-character map. -/
def strUpper (s : String) : String := String.mk (s.toList.map Char.toUpper)

/-- Python str.lower, a per-character map. -/
def strLower (s : String) : String := String.mk (s.toList.map Char.toLower)

/-- Python character slicing s[:n]. -/
def strTake (s : String) (n : Nat) : String := String.mk (s.toList.take n)

/-- One entry of analyze_structure's tag_info list. -/
structure TagInfo where
  type : String
  tag : String
  count : Nat
  sample : String
deriving DecidableEq

/-- The container-tag whitelist of analyze_structure, in source order. -/
def container_tags : List String := ["article", "div", "section", "li"]

/-- The content-tag whitelist of analyze_structure, in source order. -/
def content_tags : List String := ["h1", "h2", "h3", "p", "time"]

/-- Inner loop of analyze_structure for one container tag: keep each
element of that tag that has at least one whitelisted content descendant,
paired with the tag name. -/
def qualPairs (soup : HTree) (tag : String) : List (String × HTree) :=
  (findAll soup tag).filterMap (fun element =>
    if 0 < (findAllIn element content_tags).length then some (tag, element) else none)

/-- Outer loop of analyze_structure over the container-tag whitelist. -/
def containersFor (soup : HTree) : List String → List (String × HTree)
  | [] => []
  | tag :: rest => qualPairs soup tag ++ containersFor soup rest

/-- Content-type scan of analyze_structure: for each content tag with at
least one element, record the uppercased label, the tag, the count and a
50-character cleaned sample of the first element's text. -/
def tagInfoFor (soup : HTree) : List String → List TagInfo
  | [] => []
  | tag :: rest =>
    match findAll soup tag with
    | [] => tagInfoFor soup rest
    | e :: es =>
        ⟨strUpper tag, tag, (e :: es).length, strTake (clean_text (some e.textOf)) 50⟩
          :: tagInfoFor soup rest

/-- analyze_structure from main.py: the list of qualifying container
candidates and the content-type inventory (with the final defensive filter
on positive counts). -/
def analyze_structure (soup : HTree) : List (String × HTree) × List TagInfo :=
  (containersFor soup container_tags,
   (tagInfoFor soup content_tags).filter (fun info => decide (0 < info.count)))

/-- A container tag qualifies when some element of that tag has a
whitelisted content descendant. -/
def tagQualifies (soup : HTree) (tag : String) : Bool :=
  (findAll soup tag).any (fun e => decide (0 < (findAllIn e content_tags).length))

/-- Python str.split on a comma: "".split gives one empty part, and each
comma opens a new part. -/
def splitComma : List Char → List (List Char)
  | [] => [[]]
  | c :: cs =>
    if c = ',' then [] :: splitComma cs
    else
      match splitComma cs with
      | [] => [[c]]
      | p :: ps => (c :: p) :: ps

/-- Value of a digit string, most significant digit first. -/
def digitsVal (ds : List Char) : Int :=
  ds.foldl (fun acc c => acc * 10 + ((c.toNat : Int) - 48)) 0

/-- Python int() applied to one comma-separated item: surrounding
whitespace is ignored, an optional sign precedes the digits, and anything
else raises ValueError (modelled as none). -/
def pyInt (s : List Char) : Option Int :=
  match stripChars s with
  | [] => none
  | '+' :: ds => if ds ≠ [] ∧ ds.all Char.isDigit then some (digitsVal ds) else none
  | '-' :: ds => if ds ≠ [] ∧ ds.all Char.isDigit then some (-(digitsVal ds)) else none
  | ds => if ds.all Char.isDigit then some (digitsVal ds) else none

/-- Outcome of one iteration of present_options' while loop: either a
selection is returned, or the operator is asked again. -/
inductive PromptResult where
  | accepted (sel : List Int)
  | retry
deriving DecidableEq

/-- The list comprehension [int(x) for x in parts]: the first ValueError
aborts the whole comprehension. -/
def mapPyInt : List (List Char) → Option (List Int)
  | [] => some []
  | x :: xs =>
    match pyInt x with
    | none => none
    | some v =>
      match mapPyInt xs with
      | none => none
      | some vs => some (v :: vs)

/-- One iteration of present_options' input loop: the literal "all" (in
any case) selects every index, otherwise the comma-separated items that
strip to something nonempty are parsed as ints (ValueError reprompts) and
accepted when all lie in 1..len(tag_info). -/
def parse_selection (tag_info : List TagInfo) (choices : List Char) : PromptResult :=
  if choices.map Char.toLower = "all".toList then
    .accepted ((List.range tag_info.length).map (fun i => (i : Int) + 1))
  else
    match mapPyInt ((splitComma choices).filter (fun x => !(stripChars x).isEmpty)) with
    | none => .retry
    | some selected =>
      if selected.all (fun x => decide (1 ≤ x) && decide (x ≤ (tag_info.length : Int))) then
        .accepted selected
      else .retry

/-- present_options' while True loop, driven by the operator's successive
input lines; none models an operator who never enters a valid line. -/
def promptLoop (tag_info : List TagInfo) : List (List Char) → Option (List Int)
  | [] => none
  | i :: rest =>
    match parse_selection tag_info i with
    | .accepted sel => some sel
    | .retry => promptLoop tag_info rest

/-- present_options from main.py: an empty inventory returns the empty
selection at once, otherwise the input loop runs. -/
def present_options_model (tag_info : List TagInfo) (inputs : List (List Char)) :
    Option (List Int) :=
  if tag_info = [] then some []
  else promptLoop tag_info inputs

/-- Python list indexing with an int index, including negative indices. -/
def pyIndex {α : Type} (l : List α) (i : Int) : Option α :=
  if 0 ≤ i then l[i.toNat]?
  else if (-i).toNat ≤ l.length then l[l.length - (-i).toNat]? else none

/-- The comprehension [(tag_info[i-1].tag, tag_info[i-1].type) for i in
selected]: an out-of-range index raises, modelled as none. -/
def selectedTagsOf (tag_info : List TagInfo) : List Int → Option (List (String × String))
  | [] => some []
  | i :: rest =>
    match pyIndex tag_info (i - 1) with
    | none => none
    | some info =>
      match selectedTagsOf tag_info rest with
      | none => none
      | some st => some ((info.tag, info.type) :: st)

/-- containers[0][0] if containers else 'article': the container tag used
by scrape_page. -/
def usedContainerTag (containers : List (String × HTree)) : String :=
  match containers with
  | [] => "article"
  | c :: _ => c.1

/-- One extracted record: column label paired with cleaned cell text, in
selection order. -/
abbrev Row := List (String × String)

/-- Body of scrape_page's per-container loop: for each selected tag take
the first matching descendant, guarding the text read, and clean it.  The
guard makes the row build total, so the per-container except branch of the
source never fires. -/
def buildRow (selected_tags : List (String × String)) (article : HTree) : Row :=
  selected_tags.map (fun tc => (tc.2, clean_text ((findFirst article tc.1).map HTree.textOf)))

/-- scrape_page from main.py: one row per element of the used container
tag, with the selected columns. -/
def scrape_page (soup : HTree) (containers : List (String × HTree))
    (tag_info : List TagInfo) (selected : List Int) : Option (List Row) :=
  match selectedTagsOf tag_info selected with
  | none => none
  | some selected_tags =>
      some ((findAll soup (usedContainerTag containers)).map (buildRow selected_tags))

/-- Substring test on character lists, used for Python's "in" on str and
for regex search of a literal pattern. -/
def hasSubstr (pat : List Char) : List Char → Bool
  | [] => pat.isEmpty
  | c :: t => pat.isPrefixOf (c :: t) || hasSubstr pat t

/-- The class_ lambda of get_next_page: the class attribute exists and
contains "next" case-insensitively.  The class attribute is modelled as a
single string, matching the source's substring check on the class text. -/
def classHasNext (e : HTree) : Bool :=
  match e.attrsOf.lookup "class" with
  | some x => hasSubstr "next".toList (strLower x).toList
  | none => false

def isClassNextAnchor (e : HTree) : Bool := e.tagOf == "a" && classHasNext e

/-- A position where the regex alternative "page \d+" starts: the literal
"page " followed by at least one digit. -/
def pageDigitAt : List Char → Bool
  | 'p' :: 'a' :: 'g' :: 'e' :: ' ' :: d :: _ => d.isDigit
  | _ => false

def hasPageNum : List Char → Bool
  | [] => false
  | c :: t => pageDigitAt (c :: t) || hasPageNum t

/-- re.search of next|page \d+ with re.I on an anchor's text: some
position starts "next" or starts "page " followed by a digit. -/
def textNextMatch (s : String) : Bool :=
  hasSubstr "next".toList (strLower s).toList || hasPageNum (strLower s).toList

def isTextNextAnchor (e : HTree) : Bool := e.tagOf == "a" && textNextMatch e.textOf

/-- get_next_page from main.py: the first anchor whose class contains
"next", else the first anchor whose text matches the regex; its href, when
present, is resolved through the urljoin oracle uj. -/
def get_next_page (uj : String → String → String) (soup : HTree) (base_url : String) :
    Option String :=
  match ((elemsOf soup).find? isClassNextAnchor).orElse
      (fun _ => (elemsOf soup).find? isTextNextAnchor) with
  | some btn =>
    match btn.attrsOf.lookup "href" with
    | some href => some (uj base_url href)
    | none => none
  | none => none

/-- Loop body of fetch_page: att gives each attempt's outcome (ok markup,
or a raised RequestException that the source catches), rem counts the
remaining iterations of range(retries), attempt the attempts made so far.
The pair returned is the fetch result and the number of attempts made. -/
def fetchGo (att : Nat → Except Unit String) (retries : Nat) :
    Nat → Nat → Option String × Nat
  | 0, attempt => (none, attempt)
  | rem + 1, attempt =>
    match att attempt with
    | .ok t => (some t, attempt + 1)
    | .error _ =>
      if attempt + 1 = retries then (none, attempt + 1)
      else fetchGo att retries rem (attempt + 1)

/-- fetch_page from main.py, instrumented with the attempt count. -/
def fetch_page (att : Nat → Except Unit String) (retries : Nat) : Option String × Nat :=
  fetchGo att retries retries 0

/-- The replace('', 'N/A') step of main's persist stage, per cell. -/
def normBlank (v : String) : String := if v = "" then "N/A" else v

/-- drop_duplicates on full rows, keeping the first occurrence; seen
accumulates the rows already emitted. -/
def dedupFirst : List (List String) → List (List String) → List (List String)
  | _, [] => []
  | seen, r :: rs =>
    if r ∈ seen then dedupFirst seen rs
    else r :: dedupFirst (r :: seen) rs

/-- df.drop_duplicates().replace('', 'N/A') of main.py over rows of cell
values; fillna is a no-op because every extracted row carries every
selected column. -/
def finalize (rows : List (List String)) : List (List String) :=
  (dedupFirst [] rows).map (fun r => r.map normBlank)

/-- Result of main's page loop: accumulated rows, number of fetch_page
calls made by the loop, and the container tag used on each scraped page. -/
structure LoopResult where
  rows : List Row
  fetches : Nat
  tagsUsed : List String
deriving DecidableEq

/-- The for page_num in range(max_pages) loop of main: fetch, scrape,
locate the next link; a fetch failure or a missing next link ends the
loop, and a scrape error (none) aborts the run. fr maps a URL to
fetch_page's result and pr is the BeautifulSoup parse oracle. -/
def pageLoop (fr : String → Option String) (pr : String → HTree)
    (uj : String → String → String) (base : String)
    (containers : List (String × HTree)) (tag_info : List TagInfo)
    (selected : List Int) : Nat → String → Option LoopResult
  | 0, _ => some ⟨[], 0, []⟩
  | n + 1, url =>
    match fr url with
    | none => some ⟨[], 1, []⟩
    | some html =>
      match scrape_page (pr html) containers tag_info selected with
      | none => none
      | some page_data =>
        match get_next_page uj (pr html) base with
        | none => some ⟨page_data, 1, [usedContainerTag containers]⟩
        | some next =>
          match pageLoop fr pr uj base containers tag_info selected n next with
          | none => none
          | some r =>
              some ⟨page_data ++ r.rows, r.fetches + 1, usedContainerTag containers :: r.tagsUsed⟩

/-- Terminal states of main. -/
inductive RunOutcome where
  | fetchFailed
  | noContainers
  | blocked
  | noSelection
  | crashed
  | noData
  | finished (out : List (List String))
deriving DecidableEq

/-- main from main.py: first fetch, analysis, selection, the page loop and
the persist stage, with each early return its own outcome. -/
def mainRun (fr : String → Option String) (pr : String → HTree)
    (uj : String → String → String) (base url : String)
    (inputs : List (List Char)) (max_pages : Nat) : RunOutcome :=
  match fr url with
  | none => .fetchFailed
  | some html =>
    if (analyze_structure (pr html)).1 = [] then .noContainers
    else
      match present_options_model (analyze_structure (pr html)).2 inputs with
      | none => .blocked
      | some sel =>
        if sel = [] then .noSelection
        else
          match pageLoop fr pr uj base (analyze_structure (pr html)).1
              (analyze_structure (pr html)).2 sel max_pages url with
          | none => .crashed
          | some r =>
            if r.rows = [] then .noData
            else .finished (finalize (r.rows.map (fun row => row.map Prod.snd)))

/-! Lemmas about whitespace collapsing and stripping. -/

theorem collapseAux_nil (b : Bool) : collapseAux b [] = [] := rfl

theorem collapseAux_cons_sp_true (a : Char) (t : List Char) (ha : isSpace a = true) :
    collapseAux true (a :: t) = collapseAux true t := by
  simp [collapseAux, ha]

theorem collapseAux_cons_sp_false (a : Char) (t : List Char) (ha : isSpace a = true) :
    collapseAux false (a :: t) = ' ' :: collapseAux true t := by
  simp [collapseAux, ha]

theorem collapseAux_cons_nsp (b : Bool) (a : Char) (t : List Char) (ha : isSpace a = false) :
    collapseAux b (a :: t) = a :: collapseAux false t := by
  simp [collapseAux, ha]

theorem collapseAux_space :
    ∀ (l : List Char) (b : Bool) (c : Char), c ∈ collapseAux b l → isSpace c = true → c = ' ' := by
  intro l
  induction l with
  | nil => intro b c h; simp [collapseAux_nil] at h
  | cons a t ih =>
    intro b c h hc
    by_cases ha : isSpace a = true
    · cases b with
      | true =>
        rw [collapseAux_cons_sp_true a t ha] at h
        exact ih true c h hc
      | false =>
        rw [collapseAux_cons_sp_false a t ha] at h
        rcases List.mem_cons.mp h with h1 | h1
        · exact h1
        · exact ih true c h1 hc
    · rw [collapseAux_cons_nsp b a t (by simpa using ha)] at h
      rcases List.mem_cons.mp h with h1 | h1
      · subst h1; exact absurd hc (by simpa using ha)
      · exact ih false c h1 hc

theorem collapseAux_true_head :
    ∀ (l : List Char) (c : Char), (collapseAux true l).head? = some c → isSpace c = false := by
  intro l
  induction l with
  | nil => intro c h; simp [collapseAux_nil] at h
  | cons a t ih =>
    intro c h
    by_cases ha : isSpace a = true
    · rw [collapseAux_cons_sp_true a t ha] at h
      exact ih c h
    · rw [collapseAux_cons_nsp true a t (by simpa using ha)] at h
      simp only [List.head?_cons, Option.some.injEq] at h
      subst h; simpa using ha

theorem collapseAux_chain :
    ∀ (l : List Char) (b : Bool),
      (collapseAux b l).Chain' (fun x y => ¬(isSpace x = true ∧ isSpace y = true)) := by
  intro l
  induction l with
  | nil => intro b; simp [collapseAux_nil]
  | cons a t ih =>
    intro b
    by_cases ha : isSpace a = true
    · cases b with
      | true => rw [collapseAux_cons_sp_true a t ha]; exact ih true
      | false =>
        rw [collapseAux_cons_sp_false a t ha, List.chain'_cons']
        refine ⟨?_, ih true⟩
        intro y hy
        have hns := collapseAux_true_head t y (by simpa using hy)
        simp [hns]
    · rw [collapseAux_cons_nsp b a t (by simpa using ha), List.chain'_cons']
      refine ⟨?_, ih false⟩
      intro y _
      simp [show isSpace a = false by simpa using ha]

theorem collapseAux_ne_nil (l : List Char) (h : l ≠ []) : collapseAux false l ≠ [] := by
  cases l with
  | nil => exact absurd rfl h
  | cons a t =>
    by_cases ha : isSpace a = true
    · rw [collapseAux_cons_sp_false a t ha]; simp
    · rw [collapseAux_cons_nsp false a t (by simpa using ha)]; simp

theorem collapseAux_false_head (l : List Char)
    (h : l.head?.all (fun c => !isSpace c) = true) :
    (collapseAux false l).head? = l.head? := by
  cases l with
  | nil => rfl
  | cons a t =>
    have ha : isSpace a = false := by
      simpa using h
    rw [collapseAux_cons_nsp false a t ha]
    simp

theorem getLast?_cons_of_ne_nil {α : Type} (a : α) (l : List α) (h : l ≠ []) :
    (a :: l).getLast? = l.getLast? := by
  cases l with
  | nil => exact absurd rfl h
  | cons b t => exact List.getLast?_cons_cons

theorem collapseAux_getLast :
    ∀ (l : List Char) (b : Bool) (c : Char), l.getLast? = some c → isSpace c = false →
      ∃ d, (collapseAux b l).getLast? = some d ∧ isSpace d = false := by
  intro l
  induction l with
  | nil => intro b c h; simp at h
  | cons a t ih =>
    intro b c h hc
    cases t with
    | nil =>
      have hac : a = c := by simpa using h
      subst hac
      have hrw : collapseAux b [a] = [a] := by
        cases b with
        | true => rw [collapseAux_cons_nsp true a [] hc]; rfl
        | false => rw [collapseAux_cons_nsp false a [] hc]; rfl
      rw [hrw]
      exact ⟨a, by simp, hc⟩
    | cons a2 t2 =>
      rw [List.getLast?_cons_cons] at h
      by_cases ha : isSpace a = true
      · cases b with
        | true =>
          rw [collapseAux_cons_sp_true a _ ha]
          exact ih true c h hc
        | false =>
          rw [collapseAux_cons_sp_false a _ ha]
          obtain ⟨d, hd, hds⟩ := ih true c h hc
          have hne : collapseAux true (a2 :: t2) ≠ [] := by
            intro hnil; rw [hnil] at hd; simp at hd
          rw [getLast?_cons_of_ne_nil _ _ hne]
          exact ⟨d, hd, hds⟩
      · rw [collapseAux_cons_nsp b a _ (by simpa using ha)]
        obtain ⟨d, hd, hds⟩ := ih false c h hc
        have hne : collapseAux false (a2 :: t2) ≠ [] := collapseAux_ne_nil _ (by simp)
        rw [getLast?_cons_of_ne_nil _ _ hne]
        exact ⟨d, hd, hds⟩

theorem collapseAux_filter :
    ∀ (l : List Char) (b : Bool),
      (collapseAux b l).filter (fun c => !isSpace c) = l.filter (fun c => !isSpace c) := by
  intro l
  induction l with
  | nil => intro b; rfl
  | cons a t ih =>
    intro b
    by_cases ha : isSpace a = true
    · cases b with
      | true =>
        rw [collapseAux_cons_sp_true a t ha, ih true, List.filter_cons]
        simp [ha]
      | false =>
        rw [collapseAux_cons_sp_false a t ha, List.filter_cons, List.filter_cons]
        simp [ha, ih true]
        decide
    · rw [collapseAux_cons_nsp b a t (by simpa using ha), List.filter_cons, List.filter_cons]
      simp [show isSpace a = false by simpa using ha, ih false]

theorem head?_dropWhile (p : Char → Bool) :
    ∀ (l : List Char) (c : Char), (l.dropWhile p).head? = some c → p c = false := by
  intro l
  induction l with
  | nil => intro c h; simp at h
  | cons a t ih =>
    intro c h
    by_cases ha : p a = true
    · rw [List.dropWhile_cons_of_pos ha] at h
      exact ih c h
    · rw [List.dropWhile_cons_of_neg (by simpa using ha)] at h
      simp only [List.head?_cons, Option.some.injEq] at h
      subst h; simpa using ha

theorem getLast?_dropWhile (p : Char → Bool) :
    ∀ l : List Char, l.dropWhile p ≠ [] → (l.dropWhile p).getLast? = l.getLast? := by
  intro l
  induction l with
  | nil => intro h; exact absurd rfl h
  | cons a t ih =>
    intro h
    by_cases ha : p a = true
    · rw [List.dropWhile_cons_of_pos ha] at h ⊢
      have ht : t ≠ [] := by
        intro hnil; subst hnil; simp at h
      rw [ih h, getLast?_cons_of_ne_nil _ _ ht]
    · rw [List.dropWhile_cons_of_neg (by simpa using ha)]

theorem stripChars_head (l : List Char) (c : Char) (h : (stripChars l).head? = some c) :
    isSpace c = false := by
  unfold stripChars at h
  rw [List.head?_reverse] at h
  have hne : (((l.dropWhile isSpace).reverse).dropWhile isSpace) ≠ [] := by
    intro hnil; rw [hnil] at h; simp at h
  rw [getLast?_dropWhile isSpace _ hne, List.getLast?_reverse] at h
  exact head?_dropWhile isSpace _ c h

theorem stripChars_getLast (l : List Char) (c : Char) (h : (stripChars l).getLast? = some c) :
    isSpace c = false := by
  unfold stripChars at h
  rw [List.getLast?_reverse] at h
  exact head?_dropWhile isSpace _ c h

theorem stripChars_all_space (l : List Char) (h : ∀ c ∈ l, isSpace c = true) :
    stripChars l = [] := by
  unfold stripChars
  have h1 : l.dropWhile isSpace = [] := List.dropWhile_eq_nil_iff.mpr (by simpa using h)
  rw [h1]
  rfl

theorem filter_dropWhile_nsp :
    ∀ l : List Char,
      (l.dropWhile isSpace).filter (fun c => !isSpace c) = l.filter (fun c => !isSpace c) := by
  intro l
  induction l with
  | nil => rfl
  | cons a t ih =>
    by_cases ha : isSpace a = true
    · rw [List.dropWhile_cons_of_pos ha, ih, List.filter_cons]
      simp [ha]
    · rw [List.dropWhile_cons_of_neg (by simpa using ha)]

theorem stripChars_filter (l : List Char) :
    (stripChars l).filter (fun c => !isSpace c) = l.filter (fun c => !isSpace c) := by
  unfold stripChars
  rw [List.filter_reverse, filter_dropWhile_nsp, List.filter_reverse, List.reverse_reverse,
    filter_dropWhile_nsp]

/-- A character list in cleaned form: its whitespace is only the plain
space, no two adjacent whitespace characters, and no whitespace at either
end. -/
def wsNormalized (l : List Char) : Prop :=
  (∀ c ∈ l, isSpace c = true → c = ' ') ∧
  l.Chain' (fun x y => ¬(isSpace x = true ∧ isSpace y = true)) ∧
  l.head?.all (fun c => !isSpace c) = true ∧
  l.getLast?.all (fun c => !isSpace c) = true

theorem clean_text_some (s : String) :
    clean_text (some s) =
      if s.toList = [] then "N/A"
      else if collapseAux false (stripChars s.toList) = [] then "N/A"
      else String.mk (collapseAux false (stripChars s.toList)) := by
  rfl

theorem wsNormalized_na : wsNormalized "N/A".toList := by
  have h : "N/A".toList = ['N', '/', 'A'] := rfl
  rw [wsNormalized, h]
  refine ⟨by decide, ?_, by decide, by decide⟩
  rw [List.chain'_cons, List.chain'_cons]
  exact ⟨by decide, by decide, List.chain'_singleton _⟩

/-- C2: clean_text never returns the empty string; missing input, the
empty string and all-whitespace input give the sentinel "N/A"; otherwise
the result has every whitespace run collapsed to a single plain space,
carries no leading or trailing whitespace, and keeps exactly the
non-whitespace characters of the input. -/
theorem clean_text_spec :
    (∀ o, clean_text o ≠ "") ∧
    clean_text none = "N/A" ∧
    (∀ s, (∀ c ∈ s.toList, isSpace c = true) → clean_text (some s) = "N/A") ∧
    (∀ s, wsNormalized (clean_text (some s)).toList) ∧
    (∀ s, ¬(∀ c ∈ s.toList, isSpace c = true) →
      (clean_text (some s)).toList.filter (fun c => !isSpace c) =
        s.toList.filter (fun c => !isSpace c)) := by
  refine ⟨?_, rfl, ?_, ?_, ?_⟩
  · intro o
    cases o with
    | none => simp [clean_text]
    | some s =>
      rw [clean_text_some]
      split_ifs with h1 h2
      · decide
      · decide
      · intro hEq
        exact h2 (by simpa using congrArg String.data hEq)
  · intro s hall
    rw [clean_text_some]
    by_cases h1 : s.toList = []
    · rw [if_pos h1]
    · rw [if_neg h1, if_pos]
      rw [stripChars_all_space s.toList hall]
      rfl
  · intro s
    rw [clean_text_some]
    split_ifs with h1 h2
    · exact wsNormalized_na
    · exact wsNormalized_na
    · have htl : (String.mk (collapseAux false (stripChars s.toList))).toList
          = collapseAux false (stripChars s.toList) := rfl
      rw [htl]
      refine ⟨?_, collapseAux_chain _ false, ?_, ?_⟩
      · intro c hc hsp
        exact collapseAux_space _ false c hc hsp
      · cases hs : (stripChars s.toList).head? with
        | none =>
          exfalso
          apply h2
          rw [List.head?_eq_none_iff.mp hs]
          rfl
        | some c1 =>
          have hns := stripChars_head s.toList c1 hs
          rw [collapseAux_false_head _ (by rw [hs]; simpa using hns), hs]
          simpa using hns
      · cases hs : (stripChars s.toList).getLast? with
        | none =>
          exfalso
          apply h2
          rw [List.getLast?_eq_none_iff.mp hs]
          rfl
        | some c1 =>
          have hns := stripChars_getLast s.toList c1 hs
          obtain ⟨d, hd, hds⟩ := collapseAux_getLast _ false c1 hs hns
          rw [hd]
          simpa using hds
  · intro s hns
    rw [clean_text_some]
    have h1 : s.toList ≠ [] := by
      intro hnil
      exact hns (by rw [hnil]; intro c hc; simp at hc)
    rw [if_neg h1]
    have hfil : (collapseAux false (stripChars s.toList)).filter (fun c => !isSpace c)
        = s.toList.filter (fun c => !isSpace c) := by
      rw [collapseAux_filter, stripChars_filter]
    have h2 : collapseAux false (stripChars s.toList) ≠ [] := by
      intro hnil
      rw [hnil] at hfil
      apply hns
      intro c hc
      by_contra hcsp
      have : c ∈ s.toList.filter (fun c => !isSpace c) := by
        rw [List.mem_filter]
        exact ⟨hc, by simpa using hcsp⟩
      rw [← hfil] at this
      simp at this
    rw [if_neg h2]
    exact hfil

/-- Witness for clean_text_spec at concrete inputs. -/
theorem clean_text_spec_witness :
    clean_text (some "  a   b  ") ≠ "" ∧ clean_text (some " \t ") = "N/A" :=
  ⟨clean_text_spec.1 (some "  a   b  "), clean_text_spec.2.2.1 " \t " (by decide)⟩

/-! Fetcher: attempt-count behaviour on total failure. -/

theorem fetchGo_all_fail (att : Nat → Except Unit String) (retries : Nat)
    (h : ∀ i, att i = .error ()) :
    ∀ rem attempt, attempt + rem = retries → fetchGo att retries rem attempt = (none, retries) := by
  intro rem
  induction rem with
  | zero =>
    intro attempt ha
    rw [fetchGo]
    have : attempt = retries := by omega
    rw [this]
  | succ m ih =>
    intro attempt ha
    rw [fetchGo, h attempt]
    by_cases h1 : attempt + 1 = retries
    · rw [if_pos h1, h1]
    · rw [if_neg h1]
      exact ih (attempt + 1) (by omega)

/-- C3: when every GET attempt fails with a caught RequestException,
fetch_page performs exactly retries attempts and returns the failure value
None instead of raising. -/
theorem fetch_page_all_fail (att : Nat → Except Unit String) (retries : Nat)
    (h : ∀ i, att i = .error ()) :
    fetch_page att retries = (none, retries) := by
  unfold fetch_page
  exact fetchGo_all_fail att retries h retries 0 (by omega)

/-- Witness for fetch_page_all_fail with three attempts. -/
theorem fetch_page_all_fail_witness :
    fetch_page (fun _ => .error ()) 3 = (none, 3) :=
  fetch_page_all_fail (fun _ => .error ()) 3 (fun _ => rfl)

/-! Structure analyzer: membership lemmas and the container-content link. -/

theorem elemsOf_trans :
    ∀ doc : HTree, ∀ e ∈ elemsOf doc, ∀ d ∈ elemsOf e.childrenOf, d ∈ elemsOf doc := by
  intro doc
  induction doc with
  | nil => intro e he; simp [elemsOf] at he
  | node t a s c sib ihc ihs =>
    intro e he d hd
    rw [elemsOf] at he ⊢
    rcases List.mem_cons.mp he with h1 | h1
    · subst h1
      have hdc : d ∈ elemsOf c := by simpa [HTree.childrenOf] using hd
      exact List.mem_cons.mpr (Or.inr (List.mem_append.mpr (Or.inl hdc)))
    · rcases List.mem_append.mp h1 with h2 | h2
      · exact List.mem_cons.mpr (Or.inr (List.mem_append.mpr (Or.inl (ihc e h2 d hd))))
      · exact List.mem_cons.mpr (Or.inr (List.mem_append.mpr (Or.inr (ihs e h2 d hd))))

theorem mem_qualPairs (soup : HTree) (tag : String) (p : String × HTree)
    (h : p ∈ qualPairs soup tag) :
    p.1 = tag ∧ p.2 ∈ findAll soup tag ∧ 0 < (findAllIn p.2 content_tags).length := by
  unfold qualPairs at h
  rcases List.mem_filterMap.mp h with ⟨e, he, hef⟩
  by_cases hq : 0 < (findAllIn e content_tags).length
  · rw [if_pos hq] at hef
    cases hef
    exact ⟨rfl, he, hq⟩
  · rw [if_neg hq] at hef
    cases hef

theorem mem_containersFor (soup : HTree) :
    ∀ (tags : List String) (p : String × HTree), p ∈ containersFor soup tags →
      ∃ tag ∈ tags, p ∈ qualPairs soup tag := by
  intro tags
  induction tags with
  | nil => intro p hp; simp [containersFor] at hp
  | cons tag rest ih =>
    intro p hp
    rw [containersFor] at hp
    rcases List.mem_append.mp hp with h | h
    · exact ⟨tag, List.mem_cons_self tag rest, h⟩
    · obtain ⟨tg, htg, hq⟩ := ih p h
      exact ⟨tg, List.mem_cons_of_mem _ htg, hq⟩

theorem tagInfoFor_ne_nil (soup : HTree) :
    ∀ (tags : List String) (tg : String), tg ∈ tags → findAll soup tg ≠ [] →
      tagInfoFor soup tags ≠ [] := by
  intro tags
  induction tags with
  | nil => intro tg h; simp at h
  | cons t rest ih =>
    intro tg htg hne
    cases hfa : findAll soup t with
    | nil =>
      rcases List.mem_cons.mp htg with h | h
      · subst h; exact absurd hfa hne
      · rw [tagInfoFor]
        simp only [hfa]
        exact ih tg h hne
    | cons e es =>
      rw [tagInfoFor]
      simp only [hfa]
      simp

theorem tagInfoFor_count_pos (soup : HTree) :
    ∀ tags, ∀ info ∈ tagInfoFor soup tags, 0 < info.count := by
  intro tags
  induction tags with
  | nil => intro info h; simp [tagInfoFor] at h
  | cons t rest ih =>
    intro info h
    rw [tagInfoFor] at h
    cases hfa : findAll soup t with
    | nil =>
      simp only [hfa] at h
      exact ih info h
    | cons e es =>
      simp only [hfa] at h
      rcases List.mem_cons.mp h with h1 | h1
      · subst h1; simp
      · exact ih info h1

/-- C9: whenever the analyzer reports a qualifying container, the
content-type inventory is nonempty, because the qualifying descendant is
also found by the document-wide content-tag scan. -/
theorem analyze_structure_containers_content (soup : HTree)
    (h : (analyze_structure soup).1 ≠ []) : (analyze_structure soup).2 ≠ [] := by
  obtain ⟨p, hp⟩ := List.exists_mem_of_ne_nil _ h
  obtain ⟨tag, _, hq⟩ := mem_containersFor soup container_tags p hp
  obtain ⟨hfst, hfa, hlen⟩ := mem_qualPairs soup tag p hq
  obtain ⟨d, hd⟩ := List.exists_mem_of_length_pos hlen
  have hd' := List.mem_filter.mp hd
  have hdoc : d ∈ elemsOf soup := by
    apply elemsOf_trans soup p.2 ?_ d hd'.1
    exact (List.mem_filter.mp hfa).1
  have hdfa : d ∈ findAll soup d.tagOf := by
    rw [findAll]
    exact List.mem_filter.mpr ⟨hdoc, by simp⟩
  have htag : d.tagOf ∈ content_tags := by
    have h3 := hd'.2
    simpa using h3
  have h2 : tagInfoFor soup content_tags ≠ [] :=
    tagInfoFor_ne_nil soup content_tags d.tagOf htag
      (by intro hnil; rw [hnil] at hdfa; simp at hdfa)
  show ((tagInfoFor soup content_tags).filter _) ≠ []
  rw [List.filter_eq_self.mpr ?_]
  · exact h2
  · intro info hinfo
    simpa using tagInfoFor_count_pos soup content_tags info hinfo

/-! Concrete fixtures used by the witnesses. -/

def wH2 : HTree := .node "h2" [] "Title" .nil .nil

def wNextA : HTree := .node "a" [("class", "next"), ("href", "/p2")] "" .nil .nil

def wDoc : HTree := .node "article" [] "" wH2 wNextA

/-- Witness for analyze_structure_containers_content on wDoc. -/
theorem analyze_structure_containers_content_witness :
    (analyze_structure wDoc).1 ≠ [] ∧ (analyze_structure wDoc).2 ≠ [] :=
  ⟨by decide, analyze_structure_containers_content wDoc (by decide)⟩

/-! Container-tag policy: the head of the candidate list is the first
whitelisted tag with a qualifying element. -/

theorem qualPairs_eq_nil_iff (soup : HTree) (tag : String) :
    qualPairs soup tag = [] ↔ tagQualifies soup tag = false := by
  unfold qualPairs tagQualifies
  rw [List.filterMap_eq_nil_iff, List.any_eq_false]
  constructor
  · intro h e he hq
    have h2 := h e he
    rw [if_pos (by simpa using hq)] at h2
    exact Option.noConfusion h2
  · intro h e he
    rw [if_neg]
    intro hq
    exact h e he (by simpa using hq)

theorem containersFor_head_policy (soup : HTree) :
    ∀ tags : List String,
      (containersFor soup tags = [] → tags.find? (tagQualifies soup) = none) ∧
      (∀ t e rest, containersFor soup tags = (t, e) :: rest →
        tags.find? (tagQualifies soup) = some t) := by
  intro tags
  induction tags with
  | nil =>
    refine ⟨fun _ => rfl, ?_⟩
    intro t e rest h
    simp [containersFor] at h
  | cons tg rest ih =>
    by_cases hq : tagQualifies soup tg = true
    · have hne : qualPairs soup tg ≠ [] := by
        intro hnil
        rw [(qualPairs_eq_nil_iff soup tg).mp hnil] at hq
        exact Bool.noConfusion hq
      constructor
      · intro h
        rw [containersFor] at h
        exact absurd (List.append_eq_nil.mp h).1 hne
      · intro t e rest2 h
        rw [containersFor] at h
        rw [List.find?_cons_of_pos _ hq]
        cases hqp : qualPairs soup tg with
        | nil => exact absurd hqp hne
        | cons p ps =>
          rw [hqp, List.cons_append] at h
          have hp : p = (t, e) := (List.cons.injEq _ _ _ _).mp h |>.1
          have hfst : p.1 = tg :=
            (mem_qualPairs soup tg p (by rw [hqp]; exact List.mem_cons_self p ps)).1
          rw [hp] at hfst
          rw [← hfst]
    · have hqf : tagQualifies soup tg = false := by simpa using hq
      have hnil : qualPairs soup tg = [] := (qualPairs_eq_nil_iff soup tg).mpr hqf
      constructor
      · intro h
        rw [List.find?_cons_of_neg _ hq]
        apply ih.1
        rw [containersFor, hnil, List.nil_append] at h
        exact h
      · intro t e rest2 h
        rw [List.find?_cons_of_neg _ hq]
        apply ih.2 t e rest2
        rw [containersFor, hnil, List.nil_append] at h
        exact h

theorem pageLoop_tags (fr : String → Option String) (pr : String → HTree)
    (uj : String → String → String) (base : String)
    (containers : List (String × HTree)) (tag_info : List TagInfo) (selected : List Int) :
    ∀ (n : Nat) (url : String) (r : LoopResult),
      pageLoop fr pr uj base containers tag_info selected n url = some r →
      ∀ u ∈ r.tagsUsed, u = usedContainerTag containers := by
  intro n
  induction n with
  | zero =>
    intro url r h u hu
    rw [pageLoop] at h
    cases h
    simp at hu
  | succ m ih =>
    intro url r h u hu
    rw [pageLoop] at h
    cases hfr : fr url with
    | none =>
      simp only [hfr] at h
      cases h
      simp at hu
    | some html =>
      simp only [hfr] at h
      cases hsc : scrape_page (pr html) containers tag_info selected with
      | none =>
        simp only [hsc] at h
        exact Option.noConfusion h
      | some pd =>
        simp only [hsc] at h
        cases hnx : get_next_page uj (pr html) base with
        | none =>
          simp only [hnx] at h
          cases h
          have h0 : u = usedContainerTag containers ∨ u ∈ ([] : List String) := by
            simpa using hu
          rcases h0 with h1 | h1
          · exact h1
          · simp at h1
        | some nxt =>
          simp only [hnx] at h
          cases hrec : pageLoop fr pr uj base containers tag_info selected m nxt with
          | none =>
            simp only [hrec] at h
            exact Option.noConfusion h
          | some r2 =>
            simp only [hrec] at h
            cases h
            have h0 : u = usedContainerTag containers ∨ u ∈ r2.tagsUsed := by
              simpa using hu
            rcases h0 with h1 | h1
            · exact h1
            · exact ih nxt r2 hrec u h1

/-- C1: in any run whose page-1 analysis found a qualifying container, the
container tag used for extraction on every page of the page loop is the
single tag given by the whitelist-order tie-break on page 1's document;
the loop never re-derives it. -/
theorem container_tag_policy (soup1 : HTree) (fr : String → Option String)
    (pr : String → HTree) (uj : String → String → String) (base : String)
    (tag_info : List TagInfo) (selected : List Int) (n : Nat) (url : String)
    (r : LoopResult)
    (hc : (analyze_structure soup1).1 ≠ [])
    (hrun : pageLoop fr pr uj base (analyze_structure soup1).1 tag_info selected n url
      = some r) :
    ∃ t, container_tags.find? (tagQualifies soup1) = some t ∧ ∀ u ∈ r.tagsUsed, u = t := by
  cases hcon : (analyze_structure soup1).1 with
  | nil => exact absurd hcon hc
  | cons p ps =>
    refine ⟨p.1, ?_, ?_⟩
    · exact (containersFor_head_policy soup1 container_tags).2 p.1 p.2 ps
        (by rw [← hcon]; rfl)
    · intro u hu
      have h1 := pageLoop_tags fr pr uj base (analyze_structure soup1).1 tag_info selected
        n url r hrun u hu
      rw [h1, hcon]
      rfl

/-- Witness for container_tag_policy on a concrete one-page run over wDoc. -/
theorem container_tag_policy_witness :
    ∃ t, container_tags.find? (tagQualifies wDoc) = some t ∧
      ∀ u ∈ (["article"] : List String), u = t := by
  have h := container_tag_policy wDoc (fun _ => some "page") (fun _ => wDoc)
    (fun _ s => s) "b" (analyze_structure wDoc).2 [1] 1 "u"
    ⟨[[("H2", "Title")]], 1, ["article"]⟩ (by decide) (by decide)
  simpa using h

/-! Row extractor: totality and the sentinel for missing descendants. -/

theorem selectedTagsOf_some (tag_info : List TagInfo) :
    ∀ sel : List Int, (∀ i ∈ sel, 1 ≤ i ∧ i ≤ (tag_info.length : Int)) →
      ∃ st, selectedTagsOf tag_info sel = some st ∧ st.length = sel.length := by
  intro sel
  induction sel with
  | nil => intro h; exact ⟨[], rfl, rfl⟩
  | cons i rest ih =>
    intro h
    obtain ⟨h1, h2⟩ := h i (List.mem_cons_self i rest)
    obtain ⟨st, hst, hlen⟩ := ih (fun j hj => h j (List.mem_cons_of_mem _ hj))
    have hlt : (i - 1).toNat < tag_info.length := by omega
    have hinfo : pyIndex tag_info (i - 1) = some (tag_info[(i - 1).toNat]) := by
      unfold pyIndex
      rw [if_pos (by omega)]
      exact List.getElem?_eq_getElem hlt
    refine ⟨(tag_info[(i - 1).toNat].tag, tag_info[(i - 1).toNat].type) :: st, ?_, by simp [hlen]⟩
    simp only [selectedTagsOf, hinfo, hst]

/-- C10: the per-container error branch of scrape_page is unreachable:
every element lookup is guarded before its text is read, so the page
yields exactly one record per element of the container tag. -/
theorem scrape_page_row_count (page : HTree) (containers : List (String × HTree))
    (tag_info : List TagInfo) (sel : List Int)
    (hsel : ∀ i ∈ sel, 1 ≤ i ∧ i ≤ (tag_info.length : Int)) :
    ∃ rows, scrape_page page containers tag_info sel = some rows ∧
      rows.length = (findAll page (usedContainerTag containers)).length := by
  obtain ⟨st, hst, _⟩ := selectedTagsOf_some tag_info sel hsel
  refine ⟨(findAll page (usedContainerTag containers)).map (buildRow st), ?_, by simp⟩
  simp only [scrape_page, hst]

/-- Witness for scrape_page_row_count on wDoc. -/
theorem scrape_page_row_count_witness :
    ∃ rows, scrape_page wDoc (analyze_structure wDoc).1 (analyze_structure wDoc).2 [1]
        = some rows ∧
      rows.length = (findAll wDoc (usedContainerTag (analyze_structure wDoc).1)).length :=
  scrape_page_row_count wDoc (analyze_structure wDoc).1 (analyze_structure wDoc).2 [1]
    (by decide)

/-- C4: a container instance that lacks one of the selected content-tag
descendants still produces its row, with the sentinel "N/A" in the missing
field, rather than being omitted. -/
theorem scrape_page_missing_field (page : HTree) (containers : List (String × HTree))
    (tag_info : List TagInfo) (sel : List Int) (st : List (String × String))
    (article : HTree) (tag col : String)
    (hst : selectedTagsOf tag_info sel = some st)
    (hart : article ∈ findAll page (usedContainerTag containers))
    (hmem : (tag, col) ∈ st)
    (hmiss : findFirst article tag = none) :
    ∃ rows, scrape_page page containers tag_info sel = some rows ∧
      buildRow st article ∈ rows ∧ (col, "N/A") ∈ buildRow st article := by
  refine ⟨(findAll page (usedContainerTag containers)).map (buildRow st), ?_, ?_, ?_⟩
  · simp only [scrape_page, hst]
  · exact List.mem_map_of_mem _ hart
  · have h1 : (col, clean_text ((findFirst article tag).map HTree.textOf))
        ∈ buildRow st article := by
      rw [buildRow]
      exact List.mem_map.mpr ⟨(tag, col), hmem, rfl⟩
    rw [hmiss] at h1
    simpa [clean_text] using h1

/-- Further fixtures: a second article with only a p child. -/
def wP : HTree := .node "p" [] "Body" .nil .nil

def wArticle2 : HTree := .node "article" [] "" wP .nil

def wDoc2 : HTree := .node "article" [] "" wH2 wArticle2

/-- Witness for scrape_page_missing_field: the second article of wDoc2 has
no h2 descendant yet still yields a row with "N/A". -/
theorem scrape_page_missing_field_witness :
    ∃ rows, scrape_page wDoc2 (analyze_structure wDoc2).1 (analyze_structure wDoc2).2 [1]
        = some rows ∧
      buildRow [("h2", "H2")] (HTree.node "article" [] "" wP .nil) ∈ rows ∧
      ("H2", "N/A") ∈ buildRow [("h2", "H2")] (HTree.node "article" [] "" wP .nil) :=
  scrape_page_missing_field wDoc2 (analyze_structure wDoc2).1 (analyze_structure wDoc2).2
    [1] [("h2", "H2")] (HTree.node "article" [] "" wP .nil) "h2" "H2"
    (by decide) (by decide) (by decide) (by decide)

/-! Pagination locator. -/

theorem hasSubstr_iff (pat : List Char) :
    ∀ hay : List Char, hasSubstr pat hay = true ↔ ∃ pre post, hay = pre ++ pat ++ post := by
  intro hay
  induction hay with
  | nil =>
    rw [hasSubstr]
    constructor
    · intro h
      have hp : pat = [] := by simpa using h
      exact ⟨[], [], by simp [hp]⟩
    · rintro ⟨pre, post, h⟩
      have h1 : pre = [] ∧ pat = [] ∧ post = [] := by simpa using h.symm
      simp [h1.2.1]
  | cons c t ih =>
    rw [hasSubstr]
    rw [Bool.or_eq_true]
    constructor
    · rintro (h | h)
      · have h2 : pat <+: (c :: t) := by
          rw [← List.isPrefixOf_iff_prefix]
          exact h
        obtain ⟨post, hpost⟩ := h2
        exact ⟨[], post, by simp [← hpost]⟩
      · obtain ⟨pre, post, hp⟩ := ih.mp h
        exact ⟨c :: pre, post, by simp [hp]⟩
    · rintro ⟨pre, post, hp⟩
      cases pre with
      | nil =>
        left
        rw [List.isPrefixOf_iff_prefix]
        exact ⟨post, by simpa using hp.symm⟩
      | cons p ps =>
        right
        apply ih.mpr
        refine ⟨ps, post, ?_⟩
        have := (List.cons.injEq c t p (ps ++ pat ++ post)).mp (by simpa using hp)
        exact this.2

theorem pageDigitAt_iff (l : List Char) :
    pageDigitAt l = true ↔
      ∃ d rest, l = 'p' :: 'a' :: 'g' :: 'e' :: ' ' :: d :: rest ∧ d.isDigit = true := by
  constructor
  · intro h
    unfold pageDigitAt at h
    split at h
    · rename_i d rest
      exact ⟨d, rest, rfl, h⟩
    · exact Bool.noConfusion h
  · rintro ⟨d, rest, rfl, hd⟩
    simpa [pageDigitAt] using hd

theorem hasPageNum_iff :
    ∀ l : List Char, hasPageNum l = true ↔
      ∃ pre d post, l = pre ++ ('p' :: 'a' :: 'g' :: 'e' :: ' ' :: d :: post) ∧
        d.isDigit = true := by
  intro l
  induction l with
  | nil =>
    rw [hasPageNum]
    simp
  | cons c t ih =>
    rw [hasPageNum, Bool.or_eq_true]
    constructor
    · rintro (h | h)
      · obtain ⟨d, rest, heq, hd⟩ := (pageDigitAt_iff (c :: t)).mp h
        exact ⟨[], d, rest, by simp [heq], hd⟩
      · obtain ⟨pre, d, post, heq, hd⟩ := ih.mp h
        exact ⟨c :: pre, d, post, by simp [heq], hd⟩
    · rintro ⟨pre, d, post, heq, hd⟩
      cases pre with
      | nil =>
        left
        apply (pageDigitAt_iff (c :: t)).mpr
        exact ⟨d, post, by simpa using heq, hd⟩
      | cons p ps =>
        right
        apply ih.mpr
        refine ⟨ps, d, post, ?_, hd⟩
        have := (List.cons.injEq c t p (ps ++ ('p' :: 'a' :: 'g' :: 'e' :: ' ' :: d :: post))).mp
          (by simpa using heq)
        exact this.2

/-- C5: the pagination locator first takes the first anchor whose class
attribute contains "next" case-insensitively; only when no such anchor
exists does it take the first anchor whose text matches the regex
next|page \d+ case-insensitively; the chosen anchor's link target is
resolved against the base URL, and a missing anchor or a missing target
gives none.  The last two parts characterize the two anchor predicates. -/
theorem get_next_page_spec (uj : String → String → String) (soup : HTree) (base : String) :
    (∀ b, (elemsOf soup).find? isClassNextAnchor = some b →
      get_next_page uj soup base = (b.attrsOf.lookup "href").map (uj base)) ∧
    ((elemsOf soup).find? isClassNextAnchor = none →
      ∀ b, (elemsOf soup).find? isTextNextAnchor = some b →
        get_next_page uj soup base = (b.attrsOf.lookup "href").map (uj base)) ∧
    ((elemsOf soup).find? isClassNextAnchor = none →
      (elemsOf soup).find? isTextNextAnchor = none →
      get_next_page uj soup base = none) ∧
    (∀ e, isClassNextAnchor e = true ↔ e.tagOf = "a" ∧
      ∃ x, e.attrsOf.lookup "class" = some x ∧
        ∃ pre post, (strLower x).toList = pre ++ "next".toList ++ post) ∧
    (∀ e, isTextNextAnchor e = true ↔ e.tagOf = "a" ∧
      ((∃ pre post, (strLower e.textOf).toList = pre ++ "next".toList ++ post) ∨
       (∃ pre d post, (strLower e.textOf).toList
          = pre ++ ('p' :: 'a' :: 'g' :: 'e' :: ' ' :: d :: post) ∧ d.isDigit = true))) := by
  refine ⟨?_, ?_, ?_, ?_, ?_⟩
  · intro b hb
    rw [get_next_page]
    simp only [hb, Option.orElse]
    cases hl : b.attrsOf.lookup "href" with
    | none => simp
    | some href => simp
  · intro hcn b hb
    rw [get_next_page]
    simp only [hcn, hb, Option.orElse]
    cases hl : b.attrsOf.lookup "href" with
    | none => simp
    | some href => simp
  · intro hcn htn
    rw [get_next_page]
    simp only [hcn, htn, Option.orElse]
  · intro e
    rw [isClassNextAnchor, Bool.and_eq_true, beq_iff_eq]
    constructor
    · rintro ⟨h1, h2⟩
      refine ⟨h1, ?_⟩
      rw [classHasNext] at h2
      cases hx : e.attrsOf.lookup "class" with
      | none => rw [hx] at h2; exact Bool.noConfusion h2
      | some x =>
        rw [hx] at h2
        exact ⟨x, rfl, (hasSubstr_iff _ _).mp h2⟩
    · rintro ⟨h1, x, hx, hsub⟩
      refine ⟨h1, ?_⟩
      rw [classHasNext, hx]
      exact (hasSubstr_iff _ _).mpr hsub
  · intro e
    rw [isTextNextAnchor, Bool.and_eq_true, beq_iff_eq, textNextMatch, Bool.or_eq_true,
      hasSubstr_iff, hasPageNum_iff]

/-- Witness for get_next_page_spec: wDoc carries a class-next anchor with
an href, which resolves through the urljoin oracle. -/
theorem get_next_page_spec_witness :
    get_next_page (fun _ s => s) wDoc "b" = some "/p2" := by
  have h := (get_next_page_spec (fun _ s => s) wDoc "b").1 wNextA (by decide)
  rw [h]
  decide

/-! Page loop: fetch-count bound. -/

/-- C6: the page loop makes at most max_pages fetches, and when every
fetch succeeds, every fetched page carries a next link, and the selection
is in range, it makes exactly max_pages fetches. -/
theorem pageLoop_fetch_bound (fr : String → Option String) (pr : String → HTree)
    (uj : String → String → String) (base : String)
    (containers : List (String × HTree)) (tag_info : List TagInfo) (sel : List Int) :
    (∀ (n : Nat) (url : String) (r : LoopResult),
      pageLoop fr pr uj base containers tag_info sel n url = some r → r.fetches ≤ n) ∧
    ((∀ u, ∃ h, fr u = some h) →
     (∀ h, get_next_page uj (pr h) base ≠ none) →
     (∀ i ∈ sel, 1 ≤ i ∧ i ≤ (tag_info.length : Int)) →
     ∀ (n : Nat) (url : String), ∃ r,
       pageLoop fr pr uj base containers tag_info sel n url = some r ∧ r.fetches = n) := by
  constructor
  · intro n
    induction n with
    | zero =>
      intro url r h
      rw [pageLoop] at h
      cases h
      simp
    | succ m ih =>
      intro url r h
      rw [pageLoop] at h
      cases hfr : fr url with
      | none =>
        simp only [hfr] at h
        cases h
        simp
      | some html =>
        simp only [hfr] at h
        cases hsc : scrape_page (pr html) containers tag_info sel with
        | none =>
          simp only [hsc] at h
          exact Option.noConfusion h
        | some pd =>
          simp only [hsc] at h
          cases hnx : get_next_page uj (pr html) base with
          | none =>
            simp only [hnx] at h
            cases h
            simp
          | some nxt =>
            simp only [hnx] at h
            cases hrec : pageLoop fr pr uj base containers tag_info sel m nxt with
            | none =>
              simp only [hrec] at h
              exact Option.noConfusion h
            | some r2 =>
              simp only [hrec] at h
              cases h
              have := ih nxt r2 hrec
              simp
              omega
  · intro hf hn hsel n
    induction n with
    | zero =>
      intro url
      exact ⟨⟨[], 0, []⟩, by rw [pageLoop], rfl⟩
    | succ m ih =>
      intro url
      obtain ⟨html, hfr⟩ := hf url
      obtain ⟨st, hst, _⟩ := selectedTagsOf_some tag_info sel hsel
      have hsc : scrape_page (pr html) containers tag_info sel
          = some ((findAll (pr html) (usedContainerTag containers)).map (buildRow st)) := by
        simp only [scrape_page, hst]
      obtain ⟨nxt, hnx⟩ := Option.ne_none_iff_exists'.mp (hn html)
      obtain ⟨r2, hrec, hf2⟩ := ih nxt
      refine ⟨⟨(findAll (pr html) (usedContainerTag containers)).map (buildRow st) ++ r2.rows,
        r2.fetches + 1, usedContainerTag containers :: r2.tagsUsed⟩, ?_, by simp [hf2]⟩
      rw [pageLoop]
      simp only [hfr, hsc, hnx, hrec]

/-- Witness for pageLoop_fetch_bound: budget 2 with next links always
present gives exactly 2 fetches, within the bound. -/
theorem pageLoop_fetch_bound_witness :
    ∃ r, pageLoop (fun _ => some "page") (fun _ => wDoc) (fun _ s => s) "b"
        (analyze_structure wDoc).1 (analyze_structure wDoc).2 [1] 2 "u" = some r ∧
      r.fetches = 2 ∧ r.fetches ≤ 2 := by
  have hb := pageLoop_fetch_bound (fun _ => some "page") (fun _ => wDoc) (fun _ s => s) "b"
    (analyze_structure wDoc).1 (analyze_structure wDoc).2 [1]
  obtain ⟨r, hr, hf⟩ := hb.2 (fun u => ⟨"page", rfl⟩) (fun h => by decide) (by decide) 2 "u"
  exact ⟨r, hr, hf, hb.1 2 "u" r hr⟩

/-! Persist stage: deduplication and blank normalization. -/

theorem clean_text_ne_empty (o : Option String) : clean_text o ≠ "" := by
  cases o with
  | none => simp [clean_text]
  | some s =>
    rw [clean_text_some]
    split_ifs with h1 h2
    · decide
    · decide
    · intro hEq
      exact h2 (by simpa using congrArg String.data hEq)

theorem dedupFirst_subset :
    ∀ (rs seen : List (List String)) (r), r ∈ dedupFirst seen rs → r ∈ rs := by
  intro rs
  induction rs with
  | nil => intro seen r h; simp [dedupFirst] at h
  | cons a t ih =>
    intro seen r h
    by_cases ha : a ∈ seen
    · rw [dedupFirst, if_pos ha] at h
      exact List.mem_cons_of_mem _ (ih seen r h)
    · rw [dedupFirst, if_neg ha] at h
      rcases List.mem_cons.mp h with h1 | h1
      · subst h1; exact List.mem_cons_self _ _
      · exact List.mem_cons_of_mem _ (ih (a :: seen) r h1)

theorem dedupFirst_nodup_aux :
    ∀ (rs seen : List (List String)),
      (dedupFirst seen rs).Nodup ∧ ∀ r ∈ dedupFirst seen rs, r ∉ seen := by
  intro rs
  induction rs with
  | nil => intro seen; exact ⟨List.nodup_nil, by simp [dedupFirst]⟩
  | cons a t ih =>
    intro seen
    by_cases ha : a ∈ seen
    · rw [dedupFirst, if_pos ha]
      exact ih seen
    · rw [dedupFirst, if_neg ha]
      obtain ⟨hnd, hns⟩ := ih (a :: seen)
      refine ⟨List.nodup_cons.mpr ⟨?_, hnd⟩, ?_⟩
      · intro hmem
        exact hns a hmem (List.mem_cons_self a seen)
      · intro r hr
        rcases List.mem_cons.mp hr with h1 | h1
        · subst h1; exact ha
        · intro hseen
          exact hns r h1 (List.mem_cons_of_mem _ hseen)

theorem dedupFirst_mem :
    ∀ (rs seen : List (List String)) (r), r ∈ rs → r ∉ seen → r ∈ dedupFirst seen rs := by
  intro rs
  induction rs with
  | nil => intro seen r h; simp at h
  | cons a t ih =>
    intro seen r hr hs
    by_cases ha : a ∈ seen
    · rw [dedupFirst, if_pos ha]
      rcases List.mem_cons.mp hr with h1 | h1
      · subst h1; exact absurd ha hs
      · exact ih seen r h1 hs
    · rw [dedupFirst, if_neg ha]
      rcases List.mem_cons.mp hr with h1 | h1
      · subst h1; exact List.mem_cons_self _ _
      · by_cases hra : r = a
        · subst hra; exact List.mem_cons_self r _
        · refine List.mem_cons_of_mem _ (ih (a :: seen) r h1 ?_)
          intro hmem
          rcases List.mem_cons.mp hmem with h2 | h2
          · exact hra h2
          · exact hs h2

theorem buildRow_values (st : List (String × String)) (article : HTree) :
    ∀ p ∈ buildRow st article, ∃ o, p.2 = clean_text o := by
  intro p hp
  rw [buildRow] at hp
  obtain ⟨tc, _, hre⟩ := List.mem_map.mp hp
  exact ⟨_, by rw [← hre]⟩

theorem scrape_page_inv (soup : HTree) (containers : List (String × HTree))
    (tag_info : List TagInfo) (sel : List Int) (pd : List Row)
    (h : scrape_page soup containers tag_info sel = some pd) :
    ∃ st, selectedTagsOf tag_info sel = some st ∧
      pd = (findAll soup (usedContainerTag containers)).map (buildRow st) := by
  rw [scrape_page] at h
  cases hst : selectedTagsOf tag_info sel with
  | none =>
    simp only [hst] at h
    exact Option.noConfusion h
  | some st =>
    simp only [hst, Option.some.injEq] at h
    exact ⟨st, rfl, h.symm⟩

theorem pageLoop_rows_values (fr : String → Option String) (pr : String → HTree)
    (uj : String → String → String) (base : String)
    (containers : List (String × HTree)) (tag_info : List TagInfo) (sel : List Int) :
    ∀ (n : Nat) (url : String) (r : LoopResult),
      pageLoop fr pr uj base containers tag_info sel n url = some r →
      ∀ row ∈ r.rows, ∀ p ∈ row, ∃ o, p.2 = clean_text o := by
  intro n
  induction n with
  | zero =>
    intro url r h row hrow
    rw [pageLoop] at h
    cases h
    simp at hrow
  | succ m ih =>
    intro url r h row hrow
    rw [pageLoop] at h
    cases hfr : fr url with
    | none =>
      simp only [hfr] at h
      cases h
      simp at hrow
    | some html =>
      simp only [hfr] at h
      cases hsc : scrape_page (pr html) containers tag_info sel with
      | none =>
        simp only [hsc] at h
        exact Option.noConfusion h
      | some pd =>
        simp only [hsc] at h
        have hpd : ∀ row2 ∈ pd, ∀ p ∈ row2, ∃ o, p.2 = clean_text o := by
          obtain ⟨st, _, hmap⟩ := scrape_page_inv _ _ _ _ pd hsc
          intro row2 hrow2 p hp
          rw [hmap] at hrow2
          obtain ⟨article, _, hb⟩ := List.mem_map.mp hrow2
          exact buildRow_values st article p (by rw [hb]; exact hp)
        cases hnx : get_next_page uj (pr html) base with
        | none =>
          simp only [hnx] at h
          cases h
          exact hpd row (by simpa using hrow)
        | some nxt =>
          simp only [hnx] at h
          cases hrec : pageLoop fr pr uj base containers tag_info sel m nxt with
          | none =>
            simp only [hrec] at h
            exact Option.noConfusion h
          | some r2 =>
            simp only [hrec] at h
            cases h
            have hrow2 : row ∈ pd ++ r2.rows := by simpa using hrow
            rcases List.mem_append.mp hrow2 with h1 | h1
            · exact hpd row h1
            · exact ih nxt r2 hrec row h1

/-- C7: over the rows of any page-loop run, the persist stage collapses
structurally identical rows to one (the final list is duplicate-free yet
keeps every extracted row) and contains no blank cell: blanks are rewritten
to "N/A", and every extracted cell is a cleaned value, never empty. -/
theorem finalize_result (fr : String → Option String) (pr : String → HTree)
    (uj : String → String → String) (base : String)
    (containers : List (String × HTree)) (tag_info : List TagInfo) (sel : List Int)
    (n : Nat) (url : String) (r : LoopResult)
    (hrun : pageLoop fr pr uj base containers tag_info sel n url = some r) :
    (finalize (r.rows.map (fun row => row.map Prod.snd))).Nodup ∧
    (∀ row ∈ r.rows.map (fun row => row.map Prod.snd),
      row ∈ finalize (r.rows.map (fun row => row.map Prod.snd))) ∧
    (∀ row ∈ finalize (r.rows.map (fun row => row.map Prod.snd)), ∀ v ∈ row, v ≠ "") := by
  have hval : ∀ row ∈ r.rows.map (fun row => row.map Prod.snd), ∀ v ∈ row, v ≠ "" := by
    intro row hrow v hv
    obtain ⟨row0, hrow0, hm⟩ := List.mem_map.mp hrow
    rw [← hm] at hv
    obtain ⟨p, hp, hps⟩ := List.mem_map.mp hv
    obtain ⟨o, ho⟩ := pageLoop_rows_values fr pr uj base containers tag_info sel
      n url r hrun row0 hrow0 p hp
    rw [← hps, ho]
    exact clean_text_ne_empty o
  have hid : finalize (r.rows.map (fun row => row.map Prod.snd))
      = dedupFirst [] (r.rows.map (fun row => row.map Prod.snd)) := by
    rw [finalize]
    have h2 : ∀ row ∈ dedupFirst [] (r.rows.map (fun row => row.map Prod.snd)),
        row.map normBlank = id row := by
      intro row hrow
      have hrr := dedupFirst_subset _ [] row hrow
      have h1 : ∀ v ∈ row, normBlank v = id v := by
        intro v hv
        have := hval row hrr v hv
        simp [normBlank, this]
      rw [List.map_congr_left h1, List.map_id]
      rfl
    rw [List.map_congr_left h2, List.map_id]
  refine ⟨?_, ?_, ?_⟩
  · rw [hid]
    exact (dedupFirst_nodup_aux _ []).1
  · intro row hrow
    rw [hid]
    exact dedupFirst_mem _ [] row hrow (by simp)
  · intro row hrow v hv
    rw [hid] at hrow
    exact hval row (dedupFirst_subset _ [] row hrow) v hv

/-- Witness for finalize_result on a concrete one-page run. -/
theorem finalize_result_witness :
    (finalize ((⟨[[("H2", "Title")]], 1, ["article"]⟩ : LoopResult).rows.map
        (fun row => row.map Prod.snd))).Nodup :=
  (finalize_result (fun _ => some "page") (fun _ => wDoc) (fun _ s => s) "b"
    (analyze_structure wDoc).1 (analyze_structure wDoc).2 [1] 1 "u"
    ⟨[[("H2", "Title")]], 1, ["article"]⟩ (by decide)).1

/-! Selection prompt: an input with no indices at all. -/

theorem splitComma_ne_nil : ∀ l : List Char, splitComma l ≠ [] := by
  intro l
  cases l with
  | nil => simp [splitComma]
  | cons c cs =>
    rw [splitComma]
    by_cases h : c = ','
    · rw [if_pos h]; simp
    · rw [if_neg h]
      cases hs : splitComma cs with
      | nil => simp
      | cons p ps => simp

theorem splitComma_cover :
    ∀ (l : List Char) (c : Char), c ∈ l → c = ',' ∨ ∃ p ∈ splitComma l, c ∈ p := by
  intro l
  induction l with
  | nil => intro c h; simp at h
  | cons a cs ih =>
    intro c hc
    by_cases hac : a = ','
    · rcases List.mem_cons.mp hc with h1 | h1
      · left; rw [h1]; exact hac
      · rcases ih c h1 with h2 | h2
        · left; exact h2
        · obtain ⟨p, hp, hcp⟩ := h2
          right
          refine ⟨p, ?_, hcp⟩
          rw [splitComma, if_pos hac]
          exact List.mem_cons_of_mem _ hp
    · cases hs : splitComma cs with
      | nil => exact absurd hs (splitComma_ne_nil cs)
      | cons p0 ps =>
        have hrw : splitComma (a :: cs) = (a :: p0) :: ps := by
          rw [splitComma, if_neg hac, hs]
        rcases List.mem_cons.mp hc with h1 | h1
        · right
          refine ⟨a :: p0, by rw [hrw]; exact List.mem_cons_self _ _, ?_⟩
          rw [h1]
          exact List.mem_cons_self _ _
        · rcases ih c h1 with h2 | h2
          · left; exact h2
          · obtain ⟨p, hp, hcp⟩ := h2
            rw [hs] at hp
            rcases List.mem_cons.mp hp with h3 | h3
            · right
              refine ⟨a :: p0, by rw [hrw]; exact List.mem_cons_self _ _, ?_⟩
              rw [h3] at hcp
              exact List.mem_cons_of_mem _ hcp
            · right
              exact ⟨p, by rw [hrw]; exact List.mem_cons_of_mem _ h3, hcp⟩

theorem stripChars_eq_nil_all_space (l : List Char) (h : stripChars l = []) :
    ∀ c ∈ l, isSpace c = true := by
  intro c hc
  by_contra hcs
  have h1 : c ∈ l.filter (fun c => !isSpace c) :=
    List.mem_filter.mpr ⟨hc, by simpa using hcs⟩
  rw [← stripChars_filter, h] at h1
  simp at h1

theorem parse_selection_empty (tag_info : List TagInfo) (choices : List Char)
    (H : ∀ p ∈ splitComma choices, stripChars p = []) :
    parse_selection tag_info choices = .accepted [] := by
  have hsp : ∀ c ∈ choices, c = ',' ∨ isSpace c = true := by
    intro c hc
    rcases splitComma_cover choices c hc with h1 | ⟨p, hp, hcp⟩
    · left; exact h1
    · right; exact stripChars_eq_nil_all_space p (H p hp) c hcp
  have hall : ¬ choices.map Char.toLower = "all".toList := by
    intro heq
    cases choices with
    | nil => simp at heq
    | cons c1 rest =>
      have h2 : Char.toLower c1 :: rest.map Char.toLower = ['a', 'l', 'l'] := by
        simpa using heq
      have h1 : Char.toLower c1 = 'a' := ((List.cons.injEq _ _ _ _).mp h2).1
      rcases hsp c1 (List.mem_cons_self _ _) with h3 | h3
      · rw [h3] at h1
        exact absurd h1 (by decide)
      · have h4 : c1 = ' ' ∨ c1 = '\t' ∨ c1 = '\n' ∨ c1 = '\r' ∨
            c1 = Char.ofNat 11 ∨ c1 = Char.ofNat 12 := by
          simpa [isSpace, or_assoc] using h3
        rcases h4 with h5 | h5 | h5 | h5 | h5 | h5 <;>
          (rw [h5] at h1; exact absurd h1 (by decide))
  rw [parse_selection, if_neg hall]
  have hkept : (splitComma choices).filter (fun x => !(stripChars x).isEmpty) = [] := by
    apply List.filter_eq_nil_iff.mpr
    intro p hp
    simp [H p hp]
  rw [hkept]
  rfl

/-- C8: an input line containing no indices at all (empty, or only commas
and whitespace) passes validation vacuously: the prompt accepts the empty
selection instead of re-prompting, and the orchestrator then ends the run
with no data selected. -/
theorem empty_selection_ends_run (tag_info : List TagInfo) (choices : List Char)
    (H : ∀ p ∈ splitComma choices, stripChars p = []) :
    parse_selection tag_info choices = .accepted [] ∧
    (∀ (fr : String → Option String) (pr : String → HTree) (uj : String → String → String)
       (base url html : String) (mp : Nat),
      fr url = some html → (analyze_structure (pr html)).1 ≠ [] →
      mainRun fr pr uj base url [choices] mp = .noSelection) := by
  refine ⟨parse_selection_empty tag_info choices H, ?_⟩
  intro fr pr uj base url html mp hfr hcont
  rw [mainRun]
  simp only [hfr]
  rw [if_neg hcont]
  have hpom : present_options_model (analyze_structure (pr html)).2 [choices] = some [] := by
    rw [present_options_model]
    by_cases hti : (analyze_structure (pr html)).2 = []
    · rw [if_pos hti]
    · rw [if_neg hti, promptLoop, parse_selection_empty _ choices H]
  simp only [hpom]
  simp

/-- Witness for empty_selection_ends_run with the input " , ". -/
theorem empty_selection_ends_run_witness :
    parse_selection (analyze_structure wDoc).2 [' ', ',', ' '] = .accepted [] ∧
    mainRun (fun _ => some "page") (fun _ => wDoc) (fun _ s => s) "b" "u"
      [[' ', ',', ' ']] 3 = .noSelection := by
  have h := empty_selection_ends_run (analyze_structure wDoc).2 [' ', ',', ' '] (by decide)
  exact ⟨h.1, h.2 (fun _ => some "page") (fun _ => wDoc) (fun _ s => s) "b" "u" "page" 3 rfl
    (by decide)⟩
